import Mathlib

/-! The key-value access layer of badger-cli.

A shallow embedding of `pkg/badger/badger.go` (`jsonString`, `DB.Get`, `DB.List`,
`DB.Set`, `DB.Delete`) together with an in-memory model of the storage engine the
layer drives (transactions, the forward iterator, per-entry expiration).

Conventions.
* A Go `string` / `[]byte` is a list of bytes (`Bytes`); text literals are written
  through `utf8`.
* Go `int` is the 64-bit signed integer.  `limit`, `offset` and the loop counters of
  `DB.List` are only incremented by one per visited key and compared, so they are
  carried as `Int`; the one place where width matters (`int(uint64)` in `DB.Get`)
  wraps explicitly modulo `2 ^ 64`.
* A Go function returning `(T, error)` returns a pair whose second component is an
  `Option GoError` (`none` is the nil error).  A run-time panic is a separate outcome
  (`Run.panics`).
-/

set_option autoImplicit false

namespace Badger

/-! ## Bytes -/

abbrev Byte := Fin 256

abbrev Bytes := List Byte

/-- A sequence of keys (the variadic `keys ...string` of `DB.Delete`). -/
abbrev Keys := List Bytes

/-- The bytes of a text literal (Go source text is UTF-8). -/
def utf8 (s : String) : Bytes :=
  s.toList.flatMap fun c =>
    (String.utf8EncodeChar c).map fun b => (⟨b.toNat % 256, Nat.mod_lt _ (by decide)⟩ : Byte)

/-- Go `bytes.HasPrefix(s, prefix)`. -/
def HasPrefix : Bytes → Bytes → Bool
  | _, [] => true
  | [], _ :: _ => false
  | a :: s, b :: p => a == b && HasPrefix s p

/-- Go `bytes.Compare(a, b) < 0`: the lexicographic order in which the engine keeps keys. -/
def keyLess : Bytes → Bytes → Bool
  | _, [] => false
  | [], _ :: _ => true
  | a :: s, b :: t => decide (a < b) || (a == b && keyLess s t)

/-! ## Data model -/

/-- One stored entry as the engine exposes it to a reader (Go `badger.Item`):
`Key`, `ValueCopy`, `Version`, `UserMeta`, `EstimatedSize`, `ExpiresAt`
(`expiresAt = 0`: the entry never expires; otherwise Unix seconds). -/
structure Item where
  key : Bytes
  value : Bytes
  version : Nat
  userMeta : Byte
  estimatedSize : Int
  expiresAt : Nat
  deriving DecidableEq, Repr

/-- The view of a read transaction: the live entries in ascending key order. -/
abbrev Snapshot := List Item

/-- The engine's ordering invariant on a snapshot: keys strictly ascending. -/
def Snapshot.Ordered (snap : Snapshot) : Prop :=
  snap.Pairwise fun a b => keyLess a.key b.key = true

instance (snap : Snapshot) : Decidable (Snapshot.Ordered snap) := by
  unfold Snapshot.Ordered; infer_instance

/-- Go `type EntryOptions struct { TTL time.Duration }` (nanoseconds, signed). -/
structure EntryOptions where
  TTL : Int
  deriving DecidableEq, Repr

/-- Go `type ListResult struct`. -/
structure ListResult where
  Key : Bytes
  Size : Int
  Version : Nat
  Meta : Byte
  deriving DecidableEq, Repr

/-- Go errors. `keyNotFound key` is `fmt.Errorf("Key %s not found", key)`;
`ErrKeyNotFound` is the engine's sentinel `badger.ErrKeyNotFound`; `engine code` is any
other engine error and `json code` an error of `encoding/json`, both passed through
unchanged. -/
inductive GoError where
  | keyNotFound (key : Bytes)
  | ErrKeyNotFound
  | engine (code : Nat)
  | json (code : Nat)
  deriving DecidableEq, Repr

/-- Outcome of running a Go function: it returns, or the goroutine panics. -/
inductive Run (α : Type) where
  | returns (a : α)
  | panics
  deriving DecidableEq, Repr

/-! ## The iterator and `DB.List` -/

/-- Go `badger.IteratorOptions` (the fields `DB.List` touches). -/
structure IteratorOptions where
  PrefetchValues : Bool
  PrefetchSize : Int
  Prefix : Bytes
  deriving DecidableEq, Repr

/-- Go `badger.DefaultIteratorOptions`. -/
def DefaultIteratorOptions : IteratorOptions :=
  { PrefetchValues := true, PrefetchSize := 100, Prefix := [] }

/-- The iterator of a read transaction: its options and the items from the current
position onwards. -/
structure Iterator where
  opt : IteratorOptions
  items : List Item

/-- Go `txn.NewIterator(opts)`. -/
def NewIterator (snap : Snapshot) (opts : IteratorOptions) : Iterator :=
  { opt := opts, items := snap }

/-- Go `it.Seek(key)`: position at the first key `>= key`. -/
def Iterator.Seek (it : Iterator) (key : Bytes) : Iterator :=
  { it with items := it.items.dropWhile fun e => keyLess e.key key }

/-- Go `it.Rewind()`, which is `it.Seek(it.opt.Prefix)`; it restarts from the whole
snapshot. -/
def Iterator.Rewind (snap : Snapshot) (it : Iterator) : Iterator :=
  Iterator.Seek { it with items := snap } it.opt.Prefix

/-- Go `it.Valid()`: there is a current item and it carries the option prefix. -/
def Iterator.Valid (it : Iterator) : Bool :=
  match it.items with
  | [] => false
  | item :: _ => HasPrefix item.key it.opt.Prefix

/-- Go `it.ValidForPrefix(prefix)`. -/
def Iterator.ValidForPrefix (it : Iterator) (pfx : Bytes) : Bool :=
  match it.items with
  | [] => false
  | item :: _ => it.Valid && HasPrefix item.key pfx

/-- The local variables of `DB.List` that the loop updates. -/
structure ListState where
  keys : List ListResult
  total : Int
  currentOffset : Int
  deriving DecidableEq, Repr

/-- The `ListResult` built from `it.Item()`. -/
def ListResult.ofItem (item : Item) : ListResult :=
  { Key := item.key, Size := item.estimatedSize, Version := item.version, Meta := item.userMeta }

/-- One execution of the body of the `for` loop of `DB.List` (lines 107-124). -/
def listBody (limit offset : Int) (item : Item) (st : ListState) : ListState :=
  let total := st.total + 1
  let currentOffset := st.currentOffset + 1
  if currentOffset < offset then
    { st with total := total, currentOffset := currentOffset }
  else if (st.keys.length : Int) < limit then
    { keys := st.keys ++ [ListResult.ofItem item], total := total, currentOffset := currentOffset }
  else
    { st with total := total, currentOffset := currentOffset }

/-- The loop `for ...; it.ValidForPrefix([]byte(prefix)); it.Next()`, by recursion on
the items that remain in front of the iterator. -/
def listLoop (opt : IteratorOptions) (pfx : Bytes) (limit offset : Int) :
    List Item → ListState → ListState
  | [], st => st
  | item :: rest, st =>
    if Iterator.ValidForPrefix { opt := opt, items := item :: rest } pfx then
      listLoop opt pfx limit offset rest (listBody limit offset item st)
    else st

/-- The iterator options `DB.List` builds (lines 93-101). -/
def listOptions (pfx : Bytes) (limit : Int) : IteratorOptions :=
  let opts := { DefaultIteratorOptions with PrefetchValues := false }
  let opts := if limit > 0 then { opts with PrefetchSize := limit } else opts
  if pfx ≠ [] then { opts with Prefix := pfx } else opts

/-- Go `func (db *DB) List(prefix string, limit, offset int) ([]ListResult, int, error)`
run against the snapshot of its read transaction. -/
def DB.List (snap : Snapshot) (pfx : Bytes) (limit offset : Int) :
    List ListResult × Int × Option GoError :=
  let opts := listOptions pfx limit
  let it := Iterator.Rewind snap (NewIterator snap opts)
  let st := listLoop it.opt pfx limit offset it.items { keys := [], total := 0, currentOffset := 0 }
  (st.keys, st.total, none)

/-- The four keys of the paging scenario: `a1`, `a2`, `a3`, `b1`. -/
def scenarioSnapshot : Snapshot :=
  [ { key := utf8 "a1", value := [], version := 1, userMeta := 0, estimatedSize := 4, expiresAt := 0 },
    { key := utf8 "a2", value := [], version := 2, userMeta := 0, estimatedSize := 4, expiresAt := 0 },
    { key := utf8 "a3", value := [], version := 3, userMeta := 0, estimatedSize := 4, expiresAt := 0 },
    { key := utf8 "b1", value := [], version := 4, userMeta := 0, estimatedSize := 4, expiresAt := 0 } ]

/-! ## The in-memory engine: store, faults, transactions -/

/-- The committed state of the store: its entries (ascending by key, one per key) and
the timestamp the next committed write transaction receives as version. -/
structure Store where
  entries : List Item
  nextTs : Nat
  deriving DecidableEq, Repr

/-- Go `badger.Entry`: a write handed to a transaction. `isDelete` is the delete bit
that `txn.Delete` sets in the entry's meta. -/
structure Entry where
  Key : Bytes
  Value : Bytes
  UserMeta : Byte
  ExpiresAt : Nat
  isDelete : Bool
  deriving DecidableEq, Repr

/-- The failures the engine may report to the layer, as oracles (an error code, or
`none` for success).
* `getErr key`: `txn.Get` fails with an error other than `ErrKeyNotFound`;
* `valueCopyErr key`: `item.ValueCopy` fails for the item of `key`;
* `modifyErr pending e`: the transaction refuses the write `e` (`txn.SetEntry`,
  `txn.Delete`) when `pending` is already buffered (empty or oversized key, oversized
  value, transaction too big, ...);
* `commitErr pending`: `txn.Commit` fails (conflict, I/O). -/
structure Faults where
  getErr : Bytes → Option Nat
  valueCopyErr : Bytes → Option Nat
  modifyErr : List Entry → Entry → Option Nat
  commitErr : List Entry → Option Nat

/-- An engine on which no call fails. -/
def Faults.never : Faults :=
  { getErr := fun _ => none, valueCopyErr := fun _ => none,
    modifyErr := fun _ _ => none, commitErr := fun _ => none }

/-- The engine's expiry test at clock `now` (Unix nanoseconds): an entry with
`expiresAt ≠ 0` is gone once `expiresAt <= now` in seconds. -/
def Item.isExpired (now : Nat) (i : Item) : Bool :=
  i.expiresAt != 0 && decide (i.expiresAt ≤ now / 1000000000)

/-- The snapshot a read transaction opened at clock `now` sees. -/
def Store.snapshot (s : Store) (now : Nat) : Snapshot :=
  s.entries.filter fun i => !i.isExpired now

/-- Go `txn.Get(key)`. -/
def Txn.Get (F : Faults) (snap : Snapshot) (key : Bytes) : Except GoError Item :=
  match F.getErr key with
  | some code => .error (.engine code)
  | none =>
    match snap.find? fun i => i.key == key with
    | some item => .ok item
    | none => .error .ErrKeyNotFound

/-- Go `item.ValueCopy(nil)`. -/
def Item.ValueCopy (F : Faults) (item : Item) : Except GoError Bytes :=
  match F.valueCopyErr item.key with
  | some code => .error (.engine code)
  | none => .ok item.value

/-- A write transaction: the writes buffered so far, in call order. -/
structure Txn where
  pendingWrites : List Entry
  deriving DecidableEq, Repr

/-- Go `db.NewTransaction(true)`. -/
def NewTransaction : Txn := { pendingWrites := [] }

/-- Go `badger.NewEntry(key, value)`. -/
def NewEntry (key value : Bytes) : Entry :=
  { Key := key, Value := value, UserMeta := 0, ExpiresAt := 0, isDelete := false }

/-- Go `e.WithTTL(dur)`: `ExpiresAt = uint64(time.Now().Add(dur).Unix())`, with the
clock `now` in Unix nanoseconds. -/
def Entry.WithTTL (now : Nat) (e : Entry) (dur : Int) : Entry :=
  { e with ExpiresAt := ((((now : Int) + dur) / 1000000000) % 2 ^ 64).toNat }

/-- The engine's `txn.modify(e)`, through which every write passes. -/
def Txn.modify (F : Faults) (txn : Txn) (e : Entry) : Except GoError Txn :=
  match F.modifyErr txn.pendingWrites e with
  | some code => .error (.engine code)
  | none => .ok { pendingWrites := txn.pendingWrites ++ [e] }

/-- Go `txn.SetEntry(e)`. -/
def Txn.SetEntry (F : Faults) (txn : Txn) (e : Entry) : Except GoError Txn :=
  txn.modify F e

/-- Go `txn.Set(key, val)`, which is `txn.SetEntry(NewEntry(key, val))`. -/
def Txn.Set (F : Faults) (txn : Txn) (key val : Bytes) : Except GoError Txn :=
  txn.SetEntry F (NewEntry key val)

/-- The entry `txn.Delete(key)` buffers. -/
def deleteEntry (key : Bytes) : Entry :=
  { Key := key, Value := [], UserMeta := 0, ExpiresAt := 0, isDelete := true }

/-- Go `txn.Delete(key)`. -/
def Txn.Delete (F : Faults) (txn : Txn) (key : Bytes) : Except GoError Txn :=
  txn.modify F (deleteEntry key)

/-- Store `item` under its key, replacing the entry of that key if there is one and
keeping the ascending key order. -/
def putItem (item : Item) : List Item → List Item
  | [] => [item]
  | h :: t =>
    if h.key = item.key then item :: t
    else if keyLess item.key h.key then item :: h :: t
    else h :: putItem item t

/-- The stored entry a committed write `e` becomes, at commit timestamp `ts`. -/
def writtenItem (ts : Nat) (e : Entry) : Item :=
  { key := e.Key, value := e.Value, version := ts, userMeta := e.UserMeta,
    estimatedSize := (e.Key.length : Int) + (e.Value.length : Int) + 2,
    expiresAt := e.ExpiresAt }

/-- The effect of one committed write on the entries, at commit timestamp `ts`. -/
def applyWrite (ts : Nat) (items : List Item) (e : Entry) : List Item :=
  if e.isDelete then items.filter fun i => i.key ≠ e.Key
  else putItem (writtenItem ts e) items

/-- Go `txn.Commit()`: nothing to do without buffered writes; otherwise either the
commit fails and the store is untouched, or all buffered writes take effect at once. -/
def Txn.Commit (F : Faults) (s : Store) (txn : Txn) : Store × Option GoError :=
  if txn.pendingWrites = [] then (s, none)
  else
    match F.commitErr txn.pendingWrites with
    | some code => (s, some (.engine code))
    | none =>
      ({ entries := txn.pendingWrites.foldl (applyWrite s.nextTs) s.entries,
         nextTs := s.nextTs + 1 }, none)

/-- Go `db.Update(fn)`: run `fn` in a fresh write transaction; if `fn` fails the
transaction is discarded and the error returned, otherwise the transaction is
committed. -/
def DB.Update (F : Faults) (s : Store) (fn : Txn → Except GoError Txn) :
    Store × Option GoError :=
  match fn NewTransaction with
  | .error err => (s, some err)
  | .ok txn => Txn.Commit F s txn

/-! ## `encoding/json`, `encoding/binary`, `fmt` -/

/-- A decoded JSON document, as `encoding/json` stores one into an empty interface
(`nil`, `bool`, `float64` given by its IEEE-754 bits, `string`, `[]interface{}`,
`map[string]interface{}`). -/
inductive JSONValue where
  | null
  | bool (b : Bool)
  | number (float64bits : Nat)
  | string (s : Bytes)
  | array (elems : List JSONValue)
  | object (members : List (Bytes × JSONValue))

/-- The part of `encoding/json` the layer calls; the JSON grammar and the rendering
are the library's.
* `decode data`: `json.Unmarshal(data, &v)` for `v` an interface variable that does not
  hold a pointer: the document is decoded generically, or a syntax error is returned;
* `marshalIndent v pfx indent`: `json.MarshalIndent(v, pfx, indent)`. -/
structure JsonLib where
  decode : Bytes → Except Nat JSONValue
  marshalIndent : JSONValue → Bytes → Bytes → Except Nat Bytes

/-- A value held in a variable of static type `any`, by dynamic type:
a `[]map[string]interface{}` (`sliceOfMaps []` is the nil slice) or a generically
decoded document. -/
inductive GoAny where
  | sliceOfMaps (maps : List (List (Bytes × JSONValue)))
  | generic (v : JSONValue)

/-- Whether a document is an array of objects (the shape of `[]map[string]interface{}`). -/
def JSONValue.isArrayOfObjects : JSONValue → Bool
  | .array elems => elems.all fun e => match e with
    | .object _ => true
    | _ => false
  | _ => false

/-- Go `json.Unmarshal(data, &valueJson)` with `valueJson` of static type `any`.
The decoder reaches the interface variable through the pointer; the value it holds is
not a pointer, so the decoder does not decode into it: it decodes the document
generically and stores the result in the variable, whatever was held before. -/
def Unmarshal (L : JsonLib) (data : Bytes) (_held : GoAny) : Except Nat GoAny :=
  match L.decode data with
  | .error code => .error code
  | .ok v => .ok (.generic v)

/-- Go `json.MarshalIndent(v, pfx, indent)` for `v` of static type `any`. -/
def MarshalIndent (L : JsonLib) (v : GoAny) (pfx indent : Bytes) : Except Nat Bytes :=
  match v with
  | .generic j => L.marshalIndent j pfx indent
  | .sliceOfMaps maps => L.marshalIndent (.array (maps.map JSONValue.object)) pfx indent

/-- Go `binary.BigEndian.Uint64(b)`; `none` is the index-out-of-range panic of its
bounds check `_ = b[7]`. -/
def BigEndian.Uint64 (b : Bytes) : Option Nat :=
  match b with
  | b0 :: b1 :: b2 :: b3 :: b4 :: b5 :: b6 :: b7 :: _ =>
    some (b7.val ||| b6.val <<< 8 ||| b5.val <<< 16 ||| b4.val <<< 24 |||
      b3.val <<< 32 ||| b2.val <<< 40 ||| b1.val <<< 48 ||| b0.val <<< 56)
  | _ => none

/-- Go `int(u)` for `u` a `uint64`: the same 64 bits read as two's complement. -/
def intOfUint64 (u : Nat) : Int :=
  if u % 2 ^ 64 < 2 ^ 63 then ((u % 2 ^ 64 : Nat) : Int) else ((u % 2 ^ 64 : Nat) : Int) - 2 ^ 64

/-- The decimal digits of a natural number, most significant first, in ASCII. -/
def decimalNat (n : Nat) : Bytes :=
  (Nat.toDigits 10 n).map fun c => (⟨c.toNat % 256, Nat.mod_lt _ (by decide)⟩ : Byte)

/-- Go `fmt.Sprintf("%d", v)` for `v` an `int`. -/
def Sprintf_d (v : Int) : Bytes :=
  match v with
  | .ofNat n => decimalNat n
  | .negSucc n => 45 :: decimalNat (n + 1)

/-- The 8-byte big-endian encoding of `n` (Go `binary.BigEndian.PutUint64`). -/
def bigEndianBytes (n : Nat) : Bytes :=
  [Fin.ofNat (n >>> 56), Fin.ofNat (n >>> 48), Fin.ofNat (n >>> 40), Fin.ofNat (n >>> 32),
   Fin.ofNat (n >>> 24), Fin.ofNat (n >>> 16), Fin.ofNat (n >>> 8), Fin.ofNat n]

/-! ## `jsonString`, `DB.Get`, `DB.Set`, `DB.Delete` -/

/-- Go `func jsonString(valueBytes []byte, valueJson any) (string, error)`. -/
def jsonString (L : JsonLib) (valueBytes : Bytes) (valueJson : GoAny) :
    Bytes × Option GoError :=
  match Unmarshal L valueBytes valueJson with
  | .error code => ([], some (.json code))
  | .ok valueJson =>
    match MarshalIndent L valueJson [] (utf8 "  ") with
    | .error code => ([], some (.json code))
    | .ok indentJsonBytes => (indentJsonBytes, none)

/-- The closure `DB.Get` passes to `db.View` (lines 51-66): the value bytes it leaves
in `valueBytes` and the error it returns. -/
def getView (F : Faults) (snap : Snapshot) (key : Bytes) : Bytes × Option GoError :=
  match Txn.Get F snap key with
  | .error err =>
    if err = .ErrKeyNotFound then ([], some (.keyNotFound key)) else ([], some err)
  | .ok item =>
    match item.ValueCopy F with
    | .error err => ([], some err)
    | .ok valueBytes => (valueBytes, none)

/-- Go `func (db *DB) Get(key string, storageFormat string) (string, error)` run
against the snapshot of its read transaction. -/
def DB.Get (L : JsonLib) (F : Faults) (snap : Snapshot) (key storageFormat : Bytes) :
    Run (Bytes × Option GoError) :=
  match getView F snap key with
  | (_, some err) => .returns ([], some err)
  | (valueBytes, none) =>
    if storageFormat = utf8 "json" then
      .returns (jsonString L valueBytes (.sliceOfMaps []))
    else if storageFormat = utf8 "string" then
      .returns (valueBytes, none)
    else if storageFormat = utf8 "int64AsBytes" then
      match BigEndian.Uint64 valueBytes with
      | none => .panics
      | some u => .returns (Sprintf_d (intOfUint64 u), none)
    else
      .returns ([], none)

/-- Go `func (db *DB) Set(key, value string, opts *EntryOptions) error` at clock `now`
(`opts = none` is the nil pointer); returns the store afterwards and the error. -/
def DB.Set (F : Faults) (s : Store) (now : Nat) (key value : Bytes)
    (opts : Option EntryOptions) : Store × Option GoError :=
  DB.Update F s fun txn =>
    match opts with
    | none => txn.Set F key value
    | some opts =>
      let e := NewEntry key value
      let e := if opts.TTL > 0 then e.WithTTL now opts.TTL else e
      txn.SetEntry F e

/-- The `for _, key := range keys` loop of `DB.Delete`. -/
def deleteLoop (F : Faults) : Keys → Txn → Except GoError Txn
  | [], txn => .ok txn
  | key :: rest, txn =>
    match txn.Delete F key with
    | .error err => .error err
    | .ok txn => deleteLoop F rest txn

/-- Go `func (db *DB) Delete(keys ...string) error`; returns the store afterwards and
the error. -/
def DB.Delete (F : Faults) (s : Store) (keys : Keys) : Store × Option GoError :=
  DB.Update F s (deleteLoop F keys)

/-- The entries of a snapshot whose key carries the prefix, in snapshot order. -/
def matching (snap : Snapshot) (pfx : Bytes) : List Item :=
  snap.filter fun e => decide (pfx <+: e.key)

/-! ## Concrete data for worked examples -/

/-- A stored entry holding `value` under `key`, without expiration. -/
def itemOf (key value : Bytes) : Item :=
  { key := key, value := value, version := 1, userMeta := 0,
    estimatedSize := (key.length : Int) + (value.length : Int) + 2, expiresAt := 0 }

/-- A fragment of `encoding/json` that knows one document, the number `42` (decoded
to the `float64` 42, bits `0x4045000000000000`, and rendered back as `42`); every other
input is reported as an error. It instantiates the library in worked examples. -/
def json42 : JsonLib :=
  { decode := fun data =>
      if data = utf8 "42" then .ok (.number 0x4045000000000000) else .error 1
    marshalIndent := fun v _ _ =>
      match v with
      | .number 0x4045000000000000 => .ok (utf8 "42")
      | _ => .error 2 }

/-- An engine that refuses writes to the empty key (`ErrEmptyKey`, code 1) and
nothing else. -/
def emptyKeyFaults : Faults :=
  { Faults.never with modifyErr := fun _ e => if e.Key = [] then some 1 else none }

/-- The store holding the four keys of the paging scenario. -/
def scenarioStore : Store := { entries := scenarioSnapshot, nextTs := 5 }

/-- The empty store. -/
def emptyStore : Store := { entries := [], nextTs := 1 }

/-- Whether the engine accepts every `txn.Delete` of the batch `keys`, each at its
turn, in a transaction that already buffers `pending`. -/
def deletesAccepted (F : Faults) : Keys → List Entry → Bool
  | [], _ => true
  | key :: rest, pending =>
    (F.modifyErr pending (deleteEntry key)).isNone &&
      deletesAccepted F rest (pending ++ [deleteEntry key])

/-! ## Facts about keys and the key order -/

theorem HasPrefix_iff_isPrefix (k p : Bytes) : HasPrefix k p = true ↔ p <+: k := by
  induction p generalizing k with
  | nil => simp [HasPrefix]
  | cons b p ih =>
    cases k with
    | nil => simp [HasPrefix]
    | cons a k =>
      simp only [HasPrefix, Bool.and_eq_true, beq_iff_eq, ih, List.cons_prefix_cons]
      constructor
      · rintro ⟨h1, h2⟩; exact ⟨h1.symm, h2⟩
      · rintro ⟨h1, h2⟩; exact ⟨h1.symm, h2⟩

theorem HasPrefix_nil (k : Bytes) : HasPrefix k [] = true := by
  cases k <;> rfl

/-- A key below the prefix in key order does not carry the prefix. -/
theorem HasPrefix_of_keyLess (k p : Bytes) (h : keyLess k p = true) : HasPrefix k p = false := by
  induction p generalizing k with
  | nil => cases k <;> simp [keyLess] at h
  | cons b p ih =>
    cases k with
    | nil => rfl
    | cons a k =>
      simp only [keyLess, Bool.or_eq_true, decide_eq_true_eq, Bool.and_eq_true, beq_iff_eq] at h
      rcases h with h | ⟨h1, h2⟩
      · have : a ≠ b := ne_of_lt h
        simp [HasPrefix, this]
      · simp [HasPrefix, h1, ih k h2]

theorem keyLess_trans (a b c : Bytes) (hab : keyLess a b = true) (hbc : keyLess b c = true) :
    keyLess a c = true := by
  induction c generalizing a b with
  | nil => cases b <;> simp [keyLess] at hbc
  | cons z c ih =>
    cases b with
    | nil => cases a <;> simp [keyLess] at hab
    | cons y b =>
      cases a with
      | nil => rfl
      | cons x a =>
        simp only [keyLess, Bool.or_eq_true, decide_eq_true_eq, Bool.and_eq_true, beq_iff_eq]
          at hab hbc ⊢
        rcases hab with h | ⟨h1, h2⟩
        · rcases hbc with h' | ⟨h1', _⟩
          · exact Or.inl (lt_trans h h')
          · exact Or.inl (h1' ▸ h)
        · rcases hbc with h' | ⟨h1', h2'⟩
          · exact Or.inl (h1 ▸ h')
          · exact Or.inr ⟨h1.trans h1', ih a b h2 h2'⟩

/-- Once a key lies above the range of the prefix, every greater key does too. -/
theorem HasPrefix_false_of_above (p k k2 : Bytes) (h1 : keyLess k p = false)
    (h2 : HasPrefix k p = false) (h3 : keyLess k k2 = true) : HasPrefix k2 p = false := by
  induction p generalizing k k2 with
  | nil => simp [HasPrefix_nil] at h2
  | cons b p ih =>
    cases k with
    | nil => simp [keyLess] at h1
    | cons a k =>
      cases k2 with
      | nil => simp [keyLess] at h3
      | cons c k2 =>
        simp only [keyLess, Bool.or_eq_false_iff, decide_eq_false_iff_not, Bool.and_eq_false_imp,
          beq_iff_eq] at h1
        simp only [HasPrefix, Bool.and_eq_false_imp, beq_iff_eq] at h2 ⊢
        simp only [keyLess, Bool.or_eq_true, decide_eq_true_eq, Bool.and_eq_true, beq_iff_eq] at h3
        intro hcb
        subst hcb
        rcases h3 with h | ⟨h, h'⟩
        · exact absurd h h1.1
        · subst h
          exact ih k k2 (h1.2 rfl) (h2 rfl) h'

/-! ## The loop of `DB.List` -/

theorem matching_eq_filter (snap : Snapshot) (pfx : Bytes) :
    matching snap pfx = snap.filter fun e => HasPrefix e.key pfx := by
  unfold matching
  congr 1
  funext e
  cases h : HasPrefix e.key pfx
  · simp only [decide_eq_false_iff_not]
    intro hp
    rw [(HasPrefix_iff_isPrefix _ _).mpr hp] at h
    exact Bool.noConfusion h
  · simpa using (HasPrefix_iff_isPrefix _ _).mp h

theorem listOptions_Prefix (pfx : Bytes) (limit : Int) : (listOptions pfx limit).Prefix = pfx := by
  unfold listOptions DefaultIteratorOptions
  by_cases h : pfx = []
  · subst h; split <;> simp
  · simp [h]

theorem ValidForPrefix_cons (opt : IteratorOptions) (pfx : Bytes) (item : Item)
    (rest : List Item) (h : opt.Prefix = pfx) :
    Iterator.ValidForPrefix { opt := opt, items := item :: rest } pfx = HasPrefix item.key pfx := by
  simp [Iterator.ValidForPrefix, Iterator.Valid, h]

/-- After the seek, the loop visits exactly the entries carrying the prefix. -/
theorem listLoop_eq_foldl (opt : IteratorOptions) (pfx : Bytes) (limit offset : Int)
    (hopt : opt.Prefix = pfx) (items : List Item) (st : ListState)
    (hs : Snapshot.Ordered items) (hge : ∀ i ∈ items, keyLess i.key pfx = false) :
    listLoop opt pfx limit offset items st =
      (items.filter fun e => HasPrefix e.key pfx).foldl
        (fun st item => listBody limit offset item st) st := by
  induction items generalizing st with
  | nil => rfl
  | cons item rest ih =>
    have hs' : Snapshot.Ordered rest := (List.pairwise_cons.mp hs).2
    have hlt := (List.pairwise_cons.mp hs).1
    rw [listLoop, ValidForPrefix_cons opt pfx item rest hopt]
    cases h : HasPrefix item.key pfx
    · have hrest : (rest.filter fun e => HasPrefix e.key pfx) = [] := by
        rw [List.filter_eq_nil_iff]
        intro r hr
        have := HasPrefix_false_of_above pfx item.key r.key
          (hge item (List.mem_cons_self _ _)) h (hlt r hr)
        simp [this]
      simp [List.filter_cons, h, hrest]
    · simp only [if_true, List.filter_cons, h, List.foldl_cons]
      exact ih _ hs' fun i hi => hge i (List.mem_cons_of_mem _ hi)

/-- Seeking to the prefix drops only entries that do not carry it. -/
theorem seek_spec (pfx : Bytes) (items : List Item) (hs : Snapshot.Ordered items) :
    ((items.dropWhile fun e => keyLess e.key pfx).filter fun e => HasPrefix e.key pfx) =
        (items.filter fun e => HasPrefix e.key pfx) ∧
      Snapshot.Ordered (items.dropWhile fun e => keyLess e.key pfx) ∧
      ∀ i ∈ items.dropWhile (fun e => keyLess e.key pfx), keyLess i.key pfx = false := by
  induction items with
  | nil => exact ⟨rfl, List.Pairwise.nil, fun _ h => absurd h (List.not_mem_nil _)⟩
  | cons item rest ih =>
    have hs' : Snapshot.Ordered rest := (List.pairwise_cons.mp hs).2
    have hlt := (List.pairwise_cons.mp hs).1
    cases h : keyLess item.key pfx
    · simp only [List.dropWhile_cons, h, Bool.false_eq_true, if_false, true_and]
      refine ⟨hs, ?_⟩
      intro i hi
      rcases List.mem_cons.mp hi with rfl | hi
      · exact h
      · cases hi2 : keyLess i.key pfx
        · rfl
        · have := keyLess_trans _ _ _ (hlt i hi) hi2
          rw [h] at this
          exact Bool.noConfusion this
    · simp only [List.dropWhile_cons, h, if_true, List.filter_cons,
        HasPrefix_of_keyLess _ _ h, Bool.false_eq_true, if_false]
      exact ih hs'

theorem foldl_listBody_total (limit offset : Int) (xs : List Item) (st : ListState) :
    (xs.foldl (fun st item => listBody limit offset item st) st).total = st.total + xs.length := by
  induction xs generalizing st with
  | nil => simp
  | cons x xs ih =>
    rw [List.foldl_cons, ih]
    have : (listBody limit offset x st).total = st.total + 1 := by
      simp only [listBody]
      split
      · rfl
      · split <;> rfl
    rw [this, List.length_cons]
    push_cast
    ring

theorem foldl_listBody_keys (limit offset : Int) (xs : List Item) (st : ListState) (c : Nat)
    (hc : st.currentOffset = c) :
    (xs.foldl (fun st item => listBody limit offset item st) st).keys =
      st.keys ++ ((xs.drop ((offset - 1).toNat - c)).take
        (limit.toNat - st.keys.length)).map ListResult.ofItem := by
  induction xs generalizing st c with
  | nil => simp
  | cons x xs ih =>
    rw [List.foldl_cons]
    by_cases hskip : st.currentOffset + 1 < offset
    · have hb : listBody limit offset x st =
          { st with total := st.total + 1, currentOffset := st.currentOffset + 1 } := by
        simp [listBody, hskip]
      rw [hb, ih _ (c + 1) (by simp [hc])]
      have : (offset - 1).toNat - c = ((offset - 1).toNat - (c + 1)) + 1 := by omega
      rw [this, List.drop_succ_cons]
    · have hd : (offset - 1).toNat - c = 0 := by omega
      have hd' : (offset - 1).toNat - (c + 1) = 0 := by omega
      by_cases hroom : (st.keys.length : Int) < limit
      · have hb : listBody limit offset x st =
            { keys := st.keys ++ [ListResult.ofItem x], total := st.total + 1,
              currentOffset := st.currentOffset + 1 } := by
          simp [listBody, hskip, hroom]
        rw [hb, ih _ (c + 1) (by simp [hc]), hd, hd']
        have : limit.toNat - st.keys.length = (limit.toNat - (st.keys.length + 1)) + 1 := by omega
        simp only [List.length_append, List.length_singleton, List.drop_zero]
        rw [this, List.take_succ_cons]
        simp
      · have hb : listBody limit offset x st =
            { st with total := st.total + 1, currentOffset := st.currentOffset + 1 } := by
          simp [listBody, hskip, hroom]
        rw [hb, ih _ (c + 1) (by simp [hc]), hd, hd']
        have : limit.toNat - st.keys.length = 0 := by omega
        simp [this]

/-- What `DB.List` computes on an ordered snapshot: with `m` the matching entries, the
results are `m` with the first `offset - 1` dropped (none for `offset <= 1`) and then
cut to `limit` (none for `limit <= 0`); `total` is the length of `m`. -/
theorem List_eq (snap : Snapshot) (hs : Snapshot.Ordered snap) (pfx : Bytes)
    (limit offset : Int) :
    DB.List snap pfx limit offset =
      ((((matching snap pfx).drop (offset - 1).toNat).take limit.toNat).map ListResult.ofItem,
        ((matching snap pfx).length : Int), none) := by
  have hopt := listOptions_Prefix pfx limit
  obtain ⟨h1, h2, h3⟩ := seek_spec pfx snap hs
  simp only [DB.List, Iterator.Rewind, Iterator.Seek, NewIterator, hopt]
  rw [listLoop_eq_foldl _ pfx limit offset hopt _ _ h2 h3, h1, foldl_listBody_total,
    foldl_listBody_keys _ _ _ _ 0 rfl, matching_eq_filter]
  simp

/-! ## Claims about `DB.List` -/

/-- C1: on every ordered snapshot, for every prefix and every integer limit and offset,
the `total` returned by `DB.List` is the number of keys of the snapshot that have the
prefix as a byte-prefix; it is the number of all keys when the prefix is empty, and it
is the same for any other limit and offset. -/
theorem List_total_counts_matching (snap : Snapshot) (hs : Snapshot.Ordered snap)
    (pfx : Bytes) (limit offset : Int) :
    (DB.List snap pfx limit offset).2.1 =
        ((snap.filter fun e => decide (pfx <+: e.key)).length : Int) ∧
      (pfx = [] → (DB.List snap pfx limit offset).2.1 = (snap.length : Int)) ∧
      ∀ limit2 offset2 : Int,
        (DB.List snap pfx limit2 offset2).2.1 = (DB.List snap pfx limit offset).2.1 := by
  refine ⟨?_, ?_, ?_⟩
  · rw [List_eq snap hs]; rfl
  · intro h
    subst h
    rw [List_eq snap hs]
    simp [matching]
  · intro limit2 offset2
    rw [List_eq snap hs, List_eq snap hs]

theorem List_total_counts_matching_witness :
    Snapshot.Ordered scenarioSnapshot ∧
      (DB.List scenarioSnapshot (utf8 "a") 2 2).2.1 =
        ((scenarioSnapshot.filter fun e => decide (utf8 "a" <+: e.key)).length : Int) :=
  ⟨by decide, (List_total_counts_matching scenarioSnapshot (by decide) (utf8 "a") 2 2).1⟩

/-- C2 (as the code behaves): in the paging scenario with keys `a1`, `a2`, `a3`, `b1`,
`List("a", 2, 0)` returns `[a1, a2]` with total 3, but `List("a", 2, 2)` returns
`[a2, a3]` with total 3, whereas the matching entries after skipping two of them are
only `[a3]`. -/
theorem List_scenario_offset_two :
    ((DB.List scenarioSnapshot (utf8 "a") 2 0).1.map fun r => r.Key) = [utf8 "a1", utf8 "a2"] ∧
      (DB.List scenarioSnapshot (utf8 "a") 2 0).2 = (3, none) ∧
      ((DB.List scenarioSnapshot (utf8 "a") 2 2).1.map fun r => r.Key) = [utf8 "a2", utf8 "a3"] ∧
      (DB.List scenarioSnapshot (utf8 "a") 2 2).2 = (3, none) ∧
      ((((matching scenarioSnapshot (utf8 "a")).drop 2).take 2).map fun e => e.key) =
        [utf8 "a3"] := by
  decide

/-- C3: on every ordered snapshot, for every prefix and offset, `DB.List` returns at
most `max limit 0` results: at most `limit` when `limit >= 0`, and none when
`limit <= 0`, in which case `total` still is the number of keys carrying the prefix. -/
theorem List_length_le_limit (snap : Snapshot) (hs : Snapshot.Ordered snap)
    (pfx : Bytes) (limit offset : Int) :
    ((DB.List snap pfx limit offset).1.length : Int) ≤ max limit 0 ∧
      (0 ≤ limit → ((DB.List snap pfx limit offset).1.length : Int) ≤ limit) ∧
      (limit ≤ 0 → (DB.List snap pfx limit offset).1 = [] ∧
        (DB.List snap pfx limit offset).2.1 =
          ((snap.filter fun e => decide (pfx <+: e.key)).length : Int)) := by
  rw [List_eq snap hs]
  have hlen : ((((matching snap pfx).drop (offset - 1).toNat).take limit.toNat).map
      ListResult.ofItem).length ≤ limit.toNat := by
    rw [List.length_map, List.length_take]
    exact Nat.min_le_left _ _
  refine ⟨?_, ?_, ?_⟩
  · simp only [le_max_iff]
    omega
  · intro h
    simp only
    omega
  · intro h
    have h0 : limit.toNat = 0 := by omega
    simp only [h0, List.take_zero, List.map_nil, true_and]
    rfl

theorem List_length_le_limit_witness :
    Snapshot.Ordered scenarioSnapshot ∧
      ((DB.List scenarioSnapshot (utf8 "a") 2 0).1.length : Int) ≤ max 2 0 :=
  ⟨by decide, (List_length_le_limit scenarioSnapshot (by decide) (utf8 "a") 2 0).1⟩

/-- C10: on every ordered snapshot, for every prefix and limit, `DB.List` with any
offset `<= 1` (in particular offset 1) returns the same results and total as with
offset 0; a call with offset `k >= 1` skips exactly the first `k - 1` matching entries,
so with a positive limit and offset 1 the first matching entry is the first result. -/
theorem List_offset_one_same_as_zero (snap : Snapshot) (hs : Snapshot.Ordered snap)
    (pfx : Bytes) (limit : Int) :
    DB.List snap pfx limit 1 = DB.List snap pfx limit 0 ∧
      (∀ offset : Int, offset ≤ 1 → DB.List snap pfx limit offset = DB.List snap pfx limit 0) ∧
      (∀ k : Nat, 1 ≤ k → (DB.List snap pfx limit (k : Int)).1 =
        (((snap.filter fun e => decide (pfx <+: e.key)).drop (k - 1)).take limit.toNat).map
          ListResult.ofItem) ∧
      (∀ first rest, (snap.filter fun e => decide (pfx <+: e.key)) = first :: rest →
        0 < limit → (DB.List snap pfx limit 1).1.head? = some (ListResult.ofItem first)) := by
  have hoff : ∀ offset : Int, offset ≤ 1 →
      DB.List snap pfx limit offset = DB.List snap pfx limit 0 := by
    intro offset h
    rw [List_eq snap hs, List_eq snap hs]
    have h1 : (offset - 1).toNat = 0 := by omega
    have h2 : ((0 : Int) - 1).toNat = 0 := by decide
    rw [h1, h2]
  refine ⟨hoff 1 (le_refl _), hoff, ?_, ?_⟩
  · intro k hk
    rw [List_eq snap hs]
    have : ((k : Int) - 1).toNat = k - 1 := by omega
    simp only [this]
    rfl
  · intro first rest hm hl
    rw [List_eq snap hs]
    have hm' : matching snap pfx = first :: rest := hm
    have h1 : ((1 : Int) - 1).toNat = 0 := by decide
    obtain ⟨n, hn⟩ : ∃ n, limit.toNat = n + 1 := ⟨limit.toNat - 1, by omega⟩
    simp [hm', h1, hn]

theorem List_offset_one_same_as_zero_witness :
    Snapshot.Ordered scenarioSnapshot ∧
      DB.List scenarioSnapshot (utf8 "a") 2 1 = DB.List scenarioSnapshot (utf8 "a") 2 0 :=
  ⟨by decide, (List_offset_one_same_as_zero scenarioSnapshot (by decide) (utf8 "a") 2).1⟩

/-! ## Facts about the codecs -/

theorem lor_shiftLeft_eq_add (x a i : Nat) (h : x < 2 ^ i) : x ||| a <<< i = x + a * 2 ^ i := by
  rw [Nat.lor_comm, Nat.shiftLeft_eq, Nat.mul_comm, ← Nat.mul_add_lt_is_or h, Nat.add_comm,
    Nat.mul_comm]

/-- `binary.BigEndian.Uint64` on at least eight bytes is the base-256 value of the
first eight. -/
theorem Uint64_eq_sum (b0 b1 b2 b3 b4 b5 b6 b7 : Byte) (rest : Bytes) :
    BigEndian.Uint64 (b0 :: b1 :: b2 :: b3 :: b4 :: b5 :: b6 :: b7 :: rest) =
      some (b7.val + b6.val * 2 ^ 8 + b5.val * 2 ^ 16 + b4.val * 2 ^ 24 + b3.val * 2 ^ 32 +
        b2.val * 2 ^ 40 + b1.val * 2 ^ 48 + b0.val * 2 ^ 56) := by
  have h0 := b0.isLt
  have h1 := b1.isLt
  have h2 := b2.isLt
  have h3 := b3.isLt
  have h4 := b4.isLt
  have h5 := b5.isLt
  have h6 := b6.isLt
  have h7 := b7.isLt
  simp only [BigEndian.Uint64]
  rw [lor_shiftLeft_eq_add _ _ 8 (by omega), lor_shiftLeft_eq_add _ _ 16 (by omega),
    lor_shiftLeft_eq_add _ _ 24 (by omega), lor_shiftLeft_eq_add _ _ 32 (by omega),
    lor_shiftLeft_eq_add _ _ 40 (by omega), lor_shiftLeft_eq_add _ _ 48 (by omega),
    lor_shiftLeft_eq_add _ _ 56 (by omega)]

/-- Decoding the big-endian encoding of a 64-bit value gives the value back. -/
theorem Uint64_bigEndianBytes (n : Nat) (h : n < 2 ^ 64) :
    BigEndian.Uint64 (bigEndianBytes n) = some n := by
  unfold bigEndianBytes
  rw [Uint64_eq_sum]
  simp only [Fin.ofNat, Nat.shiftRight_eq_div_pow]
  congr 1
  omega

theorem intOfUint64_eq (n : Nat) (h : n < 2 ^ 64) :
    intOfUint64 n = if n < 2 ^ 63 then (n : Int) else (n : Int) - 2 ^ 64 := by
  unfold intOfUint64
  rw [Nat.mod_eq_of_lt h]

/-- When the engine hands out the item of `key` and a copy of its value, the closure
of `DB.Get` leaves that value in `valueBytes` and returns no error. -/
theorem getView_of_read (F : Faults) (snap : Snapshot) (key : Bytes) (item : Item)
    (v : Bytes) (hget : Txn.Get F snap key = .ok item) (hval : item.ValueCopy F = .ok v) :
    getView F snap key = (v, none) := by
  simp [getView, hget, hval]

theorem utf8_json_ne_string : utf8 "string" ≠ utf8 "json" := by decide

theorem utf8_int64_ne_json : utf8 "int64AsBytes" ≠ utf8 "json" := by decide

theorem utf8_int64_ne_string : utf8 "int64AsBytes" ≠ utf8 "string" := by decide

theorem Get_string_of_read (L : JsonLib) (F : Faults) (snap : Snapshot) (key : Bytes)
    (item : Item) (v : Bytes) (hget : Txn.Get F snap key = .ok item)
    (hval : item.ValueCopy F = .ok v) :
    DB.Get L F snap key (utf8 "string") = .returns (v, none) := by
  simp [DB.Get, getView_of_read F snap key item v hget hval, utf8_json_ne_string]

theorem Get_int64_of_read (L : JsonLib) (F : Faults) (snap : Snapshot) (key : Bytes)
    (item : Item) (v : Bytes) (hget : Txn.Get F snap key = .ok item)
    (hval : item.ValueCopy F = .ok v) :
    DB.Get L F snap key (utf8 "int64AsBytes") =
      match BigEndian.Uint64 v with
      | none => .panics
      | some u => .returns (Sprintf_d (intOfUint64 u), none) := by
  simp [DB.Get, getView_of_read F snap key item v hget hval, utf8_int64_ne_json,
    utf8_int64_ne_string]

theorem Get_json_of_read (L : JsonLib) (F : Faults) (snap : Snapshot) (key : Bytes)
    (item : Item) (v : Bytes) (hget : Txn.Get F snap key = .ok item)
    (hval : item.ValueCopy F = .ok v) :
    DB.Get L F snap key (utf8 "json") = .returns (jsonString L v (.sliceOfMaps [])) := by
  simp [DB.Get, getView_of_read F snap key item v hget hval]

/-! ## Claims about `DB.Get` -/

/-- C5 (counterexample): for the 8-byte big-endian encoding of `2^64 - 1` stored under
`n`, `Get("n", "int64AsBytes")` returns `-1`, not `18446744073709551615`. -/
theorem Get_int64AsBytes_max_uint64 :
    DB.Get json42 Faults.never [itemOf (utf8 "n") (bigEndianBytes (2 ^ 64 - 1))] (utf8 "n")
        (utf8 "int64AsBytes") = .returns (utf8 "-1", none) ∧
      DB.Get json42 Faults.never [itemOf (utf8 "n") (bigEndianBytes (2 ^ 64 - 1))] (utf8 "n")
        (utf8 "int64AsBytes") ≠ .returns (utf8 "18446744073709551615", none) := by
  decide

/-- C5 (amended): if the value stored under a key is the 8-byte big-endian encoding of
`n < 2^64`, `Get` with format `int64AsBytes` returns, without error, the decimal
representation of the 64 bits read as a signed integer: of `n` when `n < 2^63`, and of
`n - 2^64` when `2^63 <= n` (a minus sign followed by the digits of `2^64 - n`). -/
theorem Get_int64AsBytes_signed (L : JsonLib) (F : Faults) (snap : Snapshot) (key : Bytes)
    (item : Item) (n : Nat) (hn : n < 2 ^ 64) (hget : Txn.Get F snap key = .ok item)
    (hval : item.ValueCopy F = .ok (bigEndianBytes n)) :
    (n < 2 ^ 63 →
        DB.Get L F snap key (utf8 "int64AsBytes") = .returns (decimalNat n, none)) ∧
      (2 ^ 63 ≤ n →
        DB.Get L F snap key (utf8 "int64AsBytes") =
          .returns (45 :: decimalNat (2 ^ 64 - n), none)) ∧
      DB.Get L F snap key (utf8 "int64AsBytes") =
        .returns (Sprintf_d (if n < 2 ^ 63 then (n : Int) else (n : Int) - 2 ^ 64), none) := by
  have hG := Get_int64_of_read L F snap key item _ hget hval
  rw [Uint64_bigEndianBytes n hn] at hG
  simp only [intOfUint64_eq n hn] at hG
  refine ⟨?_, ?_, hG⟩
  · intro h
    rw [hG, if_pos h]
    rfl
  · intro h
    rw [hG, if_neg (by omega)]
    have : (n : Int) - 2 ^ 64 = Int.negSucc (2 ^ 64 - n - 1) := by
      rw [Int.negSucc_eq]
      omega
    rw [this]
    have h2 : 2 ^ 64 - n - 1 + 1 = 2 ^ 64 - n := by omega
    simp only [Sprintf_d, h2]

theorem Get_int64AsBytes_signed_witness :
    1000 < 2 ^ 64 ∧
      DB.Get json42 Faults.never [itemOf (utf8 "n") (bigEndianBytes 1000)] (utf8 "n")
        (utf8 "int64AsBytes") = .returns (utf8 "1000", none) :=
  ⟨by decide,
    (Get_int64AsBytes_signed json42 Faults.never [itemOf (utf8 "n") (bigEndianBytes 1000)]
      (utf8 "n") (itemOf (utf8 "n") (bigEndianBytes 1000)) 1000 (by decide) rfl rfl).1 (by decide)⟩

/-- C6 (as the code behaves): when the value stored under a key is shorter than 8
bytes, `Get` with format `int64AsBytes` panics; when it is longer than 8 bytes, `Get`
returns the decimal of its first 8 bytes and no error. -/
theorem Get_int64AsBytes_wrong_length (L : JsonLib) (F : Faults) (snap : Snapshot)
    (key : Bytes) (item : Item) (v : Bytes) (hget : Txn.Get F snap key = .ok item)
    (hval : item.ValueCopy F = .ok v) :
    (v.length < 8 → DB.Get L F snap key (utf8 "int64AsBytes") = .panics) ∧
      (8 < v.length → ∃ u, BigEndian.Uint64 (v.take 8) = some u ∧
        DB.Get L F snap key (utf8 "int64AsBytes") =
          .returns (Sprintf_d (intOfUint64 u), none)) := by
  rw [Get_int64_of_read L F snap key item v hget hval]
  constructor
  · intro h
    match v, h with
    | [], _ => rfl
    | [_], _ => rfl
    | [_, _], _ => rfl
    | [_, _, _], _ => rfl
    | [_, _, _, _], _ => rfl
    | [_, _, _, _, _], _ => rfl
    | [_, _, _, _, _, _], _ => rfl
    | [_, _, _, _, _, _, _], _ => rfl
    | _ :: _ :: _ :: _ :: _ :: _ :: _ :: _ :: _, h => simp at h; omega
  · intro h
    match v, h with
    | b0 :: b1 :: b2 :: b3 :: b4 :: b5 :: b6 :: b7 :: rest, _ =>
      exact ⟨_, rfl, rfl⟩
    | [], h => simp at h
    | [_], h => simp at h
    | [_, _], h => simp at h
    | [_, _, _], h => simp at h
    | [_, _, _, _], h => simp at h
    | [_, _, _, _, _], h => simp at h
    | [_, _, _, _, _, _], h => simp at h
    | [_, _, _, _, _, _, _], h => simp at h

theorem Get_int64AsBytes_wrong_length_witness :
    DB.Get json42 Faults.never [itemOf (utf8 "n") [1, 2, 3]] (utf8 "n")
        (utf8 "int64AsBytes") = .panics ∧
      DB.Get json42 Faults.never [itemOf (utf8 "m") [0, 0, 0, 0, 0, 0, 3, 232, 7]] (utf8 "m")
        (utf8 "int64AsBytes") = .returns (utf8 "1000", none) :=
  ⟨(Get_int64AsBytes_wrong_length json42 Faults.never [itemOf (utf8 "n") [1, 2, 3]] (utf8 "n")
      (itemOf (utf8 "n") [1, 2, 3]) [1, 2, 3] rfl rfl).1 (by decide),
    by decide⟩

/-- C9: for every format other than `json`, `string` and `int64AsBytes`, and every key
whose item and value the engine hands out, `Get` returns the empty string and no
error, whatever the stored bytes are. -/
theorem Get_unknown_format (L : JsonLib) (F : Faults) (snap : Snapshot)
    (key storageFormat : Bytes) (item : Item) (v : Bytes)
    (hj : storageFormat ≠ utf8 "json") (hs : storageFormat ≠ utf8 "string")
    (hi : storageFormat ≠ utf8 "int64AsBytes")
    (hget : Txn.Get F snap key = .ok item) (hval : item.ValueCopy F = .ok v) :
    DB.Get L F snap key storageFormat = .returns ([], none) := by
  simp [DB.Get, getView_of_read F snap key item v hget hval, hj, hs, hi]

theorem Get_unknown_format_witness :
    DB.Get json42 Faults.never [itemOf (utf8 "x") (utf8 "42")] (utf8 "x") (utf8 "hex") =
      .returns ([], none) :=
  Get_unknown_format json42 Faults.never [itemOf (utf8 "x") (utf8 "42")] (utf8 "x") (utf8 "hex")
    (itemOf (utf8 "x") (utf8 "42")) (utf8 "42") (by decide) (by decide) (by decide) rfl rfl

/-- C7 (as the code behaves): with format `json`, `Get` fails with the decoder's error
when the stored bytes are not a JSON document, and otherwise returns the indented
rendering of the document and no error, whatever the shape of the document; no test
for an array of objects is made. -/
theorem Get_json_any_document (L : JsonLib) (F : Faults) (snap : Snapshot) (key : Bytes)
    (item : Item) (v : Bytes) (hget : Txn.Get F snap key = .ok item)
    (hval : item.ValueCopy F = .ok v) :
    (∀ code, L.decode v = .error code →
        DB.Get L F snap key (utf8 "json") = .returns ([], some (.json code))) ∧
      (∀ doc out, L.decode v = .ok doc → L.marshalIndent doc [] (utf8 "  ") = .ok out →
        DB.Get L F snap key (utf8 "json") = .returns (out, none)) := by
  rw [Get_json_of_read L F snap key item v hget hval]
  constructor
  · intro code h
    simp [jsonString, Unmarshal, h]
  · intro doc out h1 h2
    simp [jsonString, Unmarshal, MarshalIndent, h1, h2]

theorem Get_json_any_document_witness :
    JSONValue.isArrayOfObjects (.number 0x4045000000000000) = false ∧
      DB.Get json42 Faults.never [itemOf (utf8 "x") (utf8 "42")] (utf8 "x") (utf8 "json") =
        .returns (utf8 "42", none) :=
  ⟨by decide,
    (Get_json_any_document json42 Faults.never [itemOf (utf8 "x") (utf8 "42")] (utf8 "x")
      (itemOf (utf8 "x") (utf8 "42")) (utf8 "42") rfl rfl).2
      (.number 0x4045000000000000) (utf8 "42") rfl rfl⟩

/-! ## Facts about writes -/

/-- After `putItem`, a lookup by key among the entries that pass a filter finds the
item that was put, if it passes the filter. -/
theorem find_filter_putItem (p : Item → Bool) (item : Item) (items : List Item)
    (hp : p item = true) :
    ((putItem item items).filter p).find? (fun i => i.key == item.key) = some item := by
  induction items with
  | nil => simp [putItem, List.filter_cons, hp]
  | cons h t ih =>
    unfold putItem
    by_cases h1 : h.key = item.key
    · simp [h1, List.filter_cons, hp]
    · by_cases h2 : keyLess item.key h.key = true
      · simp [h1, h2, List.filter_cons, hp]
      · simp only [h1, h2, if_false, Bool.false_eq_true]
        rw [List.filter_cons]
        split
        · rw [List.find?_cons]
          have : (h.key == item.key) = false := by simpa using h1
          simp only [this]
          exact ih
        · exact ih

/-- With the nil options or a zero TTL, `DB.Set` hands the plain entry to the
transaction. -/
theorem Set_no_ttl (F : Faults) (s : Store) (now : Nat) (k v : Bytes)
    (opts : Option EntryOptions) (hopts : opts = none ∨ opts = some { TTL := 0 }) :
    DB.Set F s now k v opts = DB.Update F s fun txn => txn.modify F (NewEntry k v) := by
  rcases hopts with h | h <;> subst h <;> simp [DB.Set, Txn.Set, Txn.SetEntry]

theorem deleteLoop_accepted (F : Faults) (keys : Keys) (txn : Txn)
    (h : deletesAccepted F keys txn.pendingWrites = true) :
    deleteLoop F keys txn = .ok { pendingWrites := txn.pendingWrites ++ keys.map deleteEntry } := by
  induction keys generalizing txn with
  | nil => simp [deleteLoop]
  | cons k ks ih =>
    simp only [deletesAccepted, Bool.and_eq_true, Option.isNone_iff_eq_none] at h
    simp only [deleteLoop, Txn.Delete, Txn.modify, h.1]
    rw [ih _ h.2]
    simp

theorem deleteLoop_refused (F : Faults) (pre : Keys) (k : Bytes) (post : Keys) (txn : Txn)
    (code : Nat) (h : deletesAccepted F pre txn.pendingWrites = true)
    (hk : F.modifyErr (txn.pendingWrites ++ pre.map deleteEntry) (deleteEntry k) = some code) :
    deleteLoop F (pre ++ k :: post) txn = .error (.engine code) := by
  induction pre generalizing txn with
  | nil =>
    simp only [List.map_nil, List.append_nil] at hk
    simp [deleteLoop, Txn.Delete, Txn.modify, hk]
  | cons p ps ih =>
    simp only [deletesAccepted, Bool.and_eq_true, Option.isNone_iff_eq_none] at h
    simp only [List.cons_append, deleteLoop, Txn.Delete, Txn.modify, h.1]
    exact ih _ h.2 (by simpa using hk)

/-- Committing a batch of deletions removes exactly the entries whose key is in the
batch. -/
theorem foldl_applyWrite_delete (ts : Nat) (keys : Keys) (items : List Item) :
    (keys.map deleteEntry).foldl (applyWrite ts) items =
      items.filter fun i => decide (i.key ∉ keys) := by
  induction keys generalizing items with
  | nil => simp
  | cons k ks ih =>
    simp only [List.map_cons, List.foldl_cons]
    rw [ih]
    simp only [applyWrite, deleteEntry, if_true, List.filter_filter]
    congr 1
    funext i
    by_cases h1 : i.key = k <;> by_cases h2 : i.key ∈ ks <;> simp [h1, h2]

/-! ## The writes keep the key order -/

theorem keyLess_of_not_ge (a b : Bytes) (h1 : keyLess a b = false) (h2 : a ≠ b) :
    keyLess b a = true := by
  induction b generalizing a with
  | nil =>
    cases a with
    | nil => exact absurd rfl h2
    | cons x a => rfl
  | cons y b ih =>
    cases a with
    | nil => simp [keyLess] at h1
    | cons x a =>
      simp only [keyLess, Bool.or_eq_false_iff, decide_eq_false_iff_not, Bool.and_eq_false_imp,
        beq_iff_eq] at h1
      simp only [keyLess, Bool.or_eq_true, decide_eq_true_eq, Bool.and_eq_true, beq_iff_eq]
      by_cases hxy : x = y
      · subst hxy
        exact Or.inr ⟨rfl, ih a (h1.2 rfl) fun h => h2 (by rw [h])⟩
      · exact Or.inl (lt_of_le_of_ne (not_lt.mp h1.1) (Ne.symm hxy))

theorem mem_putItem (item x : Item) (items : List Item) (h : x ∈ putItem item items) :
    x = item ∨ x ∈ items := by
  induction items with
  | nil => simpa [putItem] using h
  | cons hd t ih =>
    unfold putItem at h
    split at h
    · rcases List.mem_cons.mp h with h | h
      · exact Or.inl h
      · exact Or.inr (List.mem_cons_of_mem _ h)
    · split at h
      · rcases List.mem_cons.mp h with h | h
        · exact Or.inl h
        · exact Or.inr h
      · rcases List.mem_cons.mp h with h | h
        · exact Or.inr (h ▸ List.mem_cons_self _ _)
        · rcases ih h with h | h
          · exact Or.inl h
          · exact Or.inr (List.mem_cons_of_mem _ h)

theorem putItem_ordered (item : Item) (items : List Item) (hs : Snapshot.Ordered items) :
    Snapshot.Ordered (putItem item items) := by
  induction items with
  | nil => simp [putItem, Snapshot.Ordered]
  | cons hd t ih =>
    have hlt := (List.pairwise_cons.mp hs).1
    have ht : Snapshot.Ordered t := (List.pairwise_cons.mp hs).2
    unfold putItem
    split
    · next heq =>
      exact List.pairwise_cons.mpr ⟨fun x hx => heq ▸ hlt x hx, ht⟩
    · next hne =>
      split
      · next hless =>
        refine List.pairwise_cons.mpr ⟨fun x hx => ?_, hs⟩
        rcases List.mem_cons.mp hx with h | h
        · exact h ▸ hless
        · exact keyLess_trans _ _ _ hless (hlt x h)
      · next hge =>
        refine List.pairwise_cons.mpr ⟨fun x hx => ?_, ih ht⟩
        rcases mem_putItem item x t hx with h | h
        · subst h
          exact keyLess_of_not_ge _ _ (by simpa using hge) (fun h => hne h.symm)
        · exact hlt x h

theorem applyWrite_ordered (ts : Nat) (items : List Item) (e : Entry)
    (hs : Snapshot.Ordered items) : Snapshot.Ordered (applyWrite ts items e) := by
  unfold applyWrite
  split
  · exact List.Pairwise.filter _ hs
  · exact putItem_ordered _ _ hs

/-- A write transaction, committed or not, leaves the entries of the store in
ascending key order; hence so do `DB.Set` and `DB.Delete`. -/
theorem Update_ordered (F : Faults) (s : Store) (fn : Txn → Except GoError Txn)
    (hs : Snapshot.Ordered s.entries) : Snapshot.Ordered (DB.Update F s fn).1.entries := by
  unfold DB.Update
  cases fn NewTransaction with
  | error err => exact hs
  | ok txn =>
    simp only [Txn.Commit]
    split
    · exact hs
    · cases F.commitErr txn.pendingWrites with
      | some code => exact hs
      | none =>
        simp only
        generalize s.entries = items at hs
        induction txn.pendingWrites generalizing items with
        | nil => exact hs
        | cons e es ih => exact ih _ (applyWrite_ordered _ _ _ hs)

/-- The snapshot of a store in ascending key order is in ascending key order. -/
theorem snapshot_ordered (s : Store) (now : Nat) (hs : Snapshot.Ordered s.entries) :
    Snapshot.Ordered (s.snapshot now) :=
  List.Pairwise.filter _ hs

/-! ## Claims about `DB.Set` and `DB.Delete` -/

/-- C4: if `Set(k, v, opts)` succeeds with `opts` nil or with a zero TTL, the store
afterwards holds under `k` an entry with value `v` and no expiration, and at any later
clock, on an engine whose read of `k` does not fail, `Get(k, "string")` returns exactly
`v` and no error. -/
theorem Set_then_Get_string (L : JsonLib) (F : Faults) (s : Store) (now : Nat) (k v : Bytes)
    (opts : Option EntryOptions) (s2 : Store)
    (hopts : opts = none ∨ opts = some { TTL := 0 })
    (hset : DB.Set F s now k v opts = (s2, none)) :
    ∃ item : Item, item.key = k ∧ item.value = v ∧ item.expiresAt = 0 ∧
      ∀ (F2 : Faults) (later : Nat), F2.getErr k = none → F2.valueCopyErr k = none →
        Txn.Get F2 (s2.snapshot later) k = .ok item ∧
          DB.Get L F2 (s2.snapshot later) k (utf8 "string") = .returns (v, none) := by
  rw [Set_no_ttl F s now k v opts hopts] at hset
  simp only [DB.Update, NewTransaction, Txn.modify] at hset
  cases hm : F.modifyErr [] (NewEntry k v) with
  | some code => simp [hm] at hset
  | none =>
    simp only [hm, List.nil_append, Txn.Commit, List.cons_ne_nil, if_false] at hset
    cases hc : F.commitErr [NewEntry k v] with
    | some code => simp [hc] at hset
    | none =>
      simp only [hc, List.foldl_cons, List.foldl_nil, Prod.mk.injEq, and_true] at hset
      subst hset
      refine ⟨writtenItem s.nextTs (NewEntry k v), rfl, rfl, rfl, ?_⟩
      intro F2 later hg hv
      have hfind := find_filter_putItem (fun i => !i.isExpired later)
        (writtenItem s.nextTs (NewEntry k v)) s.entries (by simp [Item.isExpired, writtenItem, NewEntry])
      have hget : Txn.Get F2 (Store.snapshot
          { entries := applyWrite s.nextTs s.entries (NewEntry k v), nextTs := s.nextTs + 1 }
          later) k = .ok (writtenItem s.nextTs (NewEntry k v)) := by
        have hnd : (NewEntry k v).isDelete = false := rfl
        simp only [Txn.Get, hg, Store.snapshot, applyWrite, hnd, Bool.false_eq_true, if_false]
        have hk : (writtenItem s.nextTs (NewEntry k v)).key = k := rfl
        rw [hk] at hfind
        rw [hfind]
      exact ⟨hget, Get_string_of_read L F2 _ k _ v hget
        (by simp [Item.ValueCopy, writtenItem, NewEntry, hv])⟩

theorem Set_then_Get_string_witness :
    DB.Set Faults.never emptyStore 0 (utf8 "x") (utf8 "42") (some { TTL := 0 }) =
        ((DB.Set Faults.never emptyStore 0 (utf8 "x") (utf8 "42") (some { TTL := 0 })).1, none) ∧
      DB.Get json42 Faults.never
        ((DB.Set Faults.never emptyStore 0 (utf8 "x") (utf8 "42") (some { TTL := 0 })).1.snapshot
          4102444800000000000)
        (utf8 "x") (utf8 "string") = .returns (utf8 "42", none) :=
  ⟨rfl, by
    obtain ⟨_, _, _, _, h⟩ := Set_then_Get_string json42 Faults.never emptyStore 0 (utf8 "x")
      (utf8 "42") (some { TTL := 0 }) _ (Or.inr rfl) rfl
    exact (h Faults.never 4102444800000000000 rfl rfl).2⟩

/-- C8: `DB.Delete` is all or nothing. If the engine refuses the deletion of some key
of the batch (the keys before it having been accepted), `Delete` returns that error and
the store is exactly as before, whatever keys follow in the batch and whatever the
engine would have answered for them. If no deletion is refused and the commit succeeds,
`Delete` returns no error and the store keeps exactly the entries whose key is not in
the batch; if the commit itself fails, `Delete` returns its error and the store is
exactly as before. -/
theorem Delete_all_or_nothing (F : Faults) (s : Store) :
    (∀ (pre : Keys) (k : Bytes) (post : Keys) (code : Nat),
        deletesAccepted F pre [] = true →
        F.modifyErr (pre.map deleteEntry) (deleteEntry k) = some code →
        DB.Delete F s (pre ++ k :: post) = (s, some (.engine code))) ∧
      (∀ keys : Keys, deletesAccepted F keys [] = true →
        F.commitErr (keys.map deleteEntry) = none →
        (DB.Delete F s keys).2 = none ∧
          (DB.Delete F s keys).1.entries = s.entries.filter fun i => decide (i.key ∉ keys)) ∧
      (∀ (keys : Keys) (code : Nat), keys ≠ [] → deletesAccepted F keys [] = true →
        F.commitErr (keys.map deleteEntry) = some code →
        DB.Delete F s keys = (s, some (.engine code))) := by
  refine ⟨?_, ?_, ?_⟩
  · intro pre k post code h hk
    have := deleteLoop_refused F pre k post NewTransaction code h (by simpa [NewTransaction] using hk)
    simp [DB.Delete, DB.Update, this]
  · intro keys h hc
    have := deleteLoop_accepted F keys NewTransaction h
    simp only [NewTransaction, List.nil_append] at this
    simp only [DB.Delete, DB.Update, NewTransaction, this, Txn.Commit]
    by_cases hk : keys = []
    · subst hk; simp
    · simp [hk, hc, foldl_applyWrite_delete]
  · intro keys code hk h hc
    have := deleteLoop_accepted F keys NewTransaction h
    simp only [NewTransaction, List.nil_append] at this
    simp [DB.Delete, DB.Update, NewTransaction, this, Txn.Commit, hk, hc]

theorem Delete_all_or_nothing_witness :
    deletesAccepted emptyKeyFaults [utf8 "a1"] [] = true ∧
      emptyKeyFaults.modifyErr [deleteEntry (utf8 "a1")] (deleteEntry []) = some 1 ∧
      DB.Delete emptyKeyFaults scenarioStore [utf8 "a1", [], utf8 "a2"] =
        (scenarioStore, some (.engine 1)) ∧
      (DB.Delete emptyKeyFaults scenarioStore [utf8 "a1", utf8 "a2"]).1.entries =
        scenarioStore.entries.filter fun i => decide (i.key ∉ [utf8 "a1", utf8 "a2"]) :=
  ⟨rfl, rfl,
    (Delete_all_or_nothing emptyKeyFaults scenarioStore).1 [utf8 "a1"] [] [utf8 "a2"] 1 rfl rfl,
    ((Delete_all_or_nothing emptyKeyFaults scenarioStore).2.1 [utf8 "a1", utf8 "a2"] rfl rfl).2⟩

end Badger
